import Mathlib

/-!
Verification of the collapsible family-tree rendering logic
(tree_logic.js and its near-duplicate script variant).

The model is a shallow embedding:

* JavaScript strings are Lean strings; the few string operations the
  code uses (toLowerCase, localeCompare, the character-class regex of
  sanitizeForCss) are re-implemented over the character list of the
  string, with localeCompare modelled as codepoint-lexicographic
  comparison.
* JavaScript numbers are modelled as rationals.
* Optional / possibly-absent fields are Option; JavaScript truthiness
  of a string field (undefined, null and the empty string are falsy)
  is the jsStrTruthy predicate.
* The d3 hierarchy node is the inductive type PTree: a data record, a
  visible child list (the children field; the JavaScript null is the
  empty list, which is faithful because d3.hierarchy never creates an
  empty children array) and a hidden child list (the shadow field that
  the scripts spell with a leading underscore).
-/

namespace FamilyTree

/-- ASCII lowercasing of one character, as toLowerCase acts on the
ASCII range (the only range that survives the sanitizer and that the
origin tables use). -/
def jsCharToLower (c : Char) : Char :=
  if 65 ≤ c.toNat ∧ c.toNat ≤ 90 then Char.ofNat (c.toNat + 32) else c

/-- Model of the JavaScript String.prototype.toLowerCase. -/
def toLowerStr (s : String) : String := ⟨s.data.map jsCharToLower⟩

/-- Codepoint-lexicographic order on character lists. -/
def lexLt : List Char → List Char → Bool
  | [], [] => false
  | [], _ :: _ => true
  | _ :: _, [] => false
  | a :: as, b :: bs =>
    if a.toNat < b.toNat then true
    else if a.toNat = b.toNat then lexLt as bs else false

/-- Model of a negative result of String.prototype.localeCompare:
strLtJS a b holds when a.localeCompare(b) < 0, read as plain
lexicographic comparison. -/
def strLtJS (a b : String) : Bool := lexLt a.data b.data

/-- JavaScript truthiness of an optional string value: undefined, null
and the empty string are falsy, every other string is truthy. -/
def jsStrTruthy : Option String → Bool
  | none => false
  | some s => !s.data.isEmpty

/-- Model of the JavaScript expression a or-else b for an optional
string a: the value of a when truthy, otherwise b. -/
def jsOrStr (a : Option String) (b : String) : String :=
  if jsStrTruthy a then a.getD "" else b

/-- The details sub-record of a Person Record. -/
structure PersonDetails where
  origin_breakdown : Option (List (String × ℚ))
  year_info : Option String
  raw : Option String

/-- The per-person fields of a Person Record other than the nested
children (the tree structure itself lives in PTree). -/
structure PersonData where
  name : Option String
  id : Option String
  countryOfOrigin : Option String
  origin_mix : Option (List (String × ℚ))
  details : Option PersonDetails

/-- A neutral record with every optional field absent. -/
def blankData : PersonData :=
  { name := none, id := none, countryOfOrigin := none,
    origin_mix := none, details := none }

/-- A d3 hierarchy node: its data record, its visible child list
(children) and its hidden child list (the underscore-children shadow
field). The JavaScript null child list is the empty list. -/
inductive PTree where
  | node (data : PersonData) (children : List PTree) (hidden : List PTree) : PTree

/-- Data record of the root node of a subtree. -/
def PTree.data : PTree → PersonData
  | .node d _ _ => d

/-- Visible child list of the root node of a subtree. -/
def PTree.children : PTree → List PTree
  | .node _ c _ => c

/-- Hidden child list of the root node of a subtree. -/
def PTree.hidden : PTree → List PTree
  | .node _ _ h => h

mutual

/-- Number of visible nodes of a tree: the nodes that
descendants() of the d3 layout enumerates, reached through visible
child lists only. -/
def visibleCount : PTree → Nat
  | .node _ c _ => 1 + visibleCountList c

/-- Sum of visibleCount over a list of subtrees. -/
def visibleCountList : List PTree → Nat
  | [] => 0
  | t :: ts => visibleCount t + visibleCountList ts

end

mutual

/-- Total number of nodes of a tree, counting both the visible and the
hidden child lists. -/
def totalCount : PTree → Nat
  | .node _ c h => 1 + totalCountList c + totalCountList h

/-- Sum of totalCount over a list of subtrees. -/
def totalCountList : List PTree → Nat
  | [] => 0
  | t :: ts => totalCount t + totalCountList ts

end

mutual

/-- Every hidden child list of the tree is empty; this is the state of
a tree freshly produced by d3.hierarchy at document load, before any
collapsing. -/
def hiddenFree : PTree → Bool
  | .node _ c h => h.isEmpty && hiddenFreeList c

/-- hiddenFree over a list of subtrees. -/
def hiddenFreeList : List PTree → Bool
  | [] => true
  | t :: ts => hiddenFree t && hiddenFreeList ts

end

mutual

/-- The collapseRecursively function of the scripts: when the node has
visible children they are moved to the hidden list and each is
collapsed recursively; when it only has hidden children these are
collapsed recursively in place; leaves are untouched. -/
def collapseRecursively : PTree → PTree
  | .node d c h =>
    if c.isEmpty then PTree.node d c (collapseList h)
    else PTree.node d [] (collapseList c)

/-- collapseRecursively mapped over a child list (the forEach loop). -/
def collapseList : List PTree → List PTree
  | [] => []
  | t :: ts => collapseRecursively t :: collapseList ts

end

/-- The one-time initial collapse step at document load: for every
child of the root that itself has children, collapseRecursively is
applied to each of those grandchildren. -/
def initialCollapse : PTree → PTree
  | .node d c h =>
    PTree.node d
      (c.map fun child =>
        match child with
        | .node d2 c2 h2 => PTree.node d2 (collapseList c2) h2)
      h

/-- The toggleChildren function of the scripts: when the node has a
truthy visible child list it becomes the hidden list and the visible
list becomes null; otherwise the hidden list (possibly null) becomes
visible and the hidden list becomes null. -/
def toggleChildren : PTree → PTree
  | .node d c h =>
    if c.isEmpty then PTree.node d h []
    else PTree.node d [] c

/-- Loop state of the for-in loop of getDominantOrigin: the running
dominant country, the running maximal percentage and the flag telling
whether a non-unknown entry has been seen. -/
structure OriginAcc where
  dominantCountry : String
  maxPercentage : ℚ
  hasKnownOrigin : Bool

/-- One iteration of the for-in loop of getDominantOrigin over one
(country, percentage) entry of the origin_mix object. -/
def originStep (acc : OriginAcc) (e : String × ℚ) : OriginAcc :=
  if toLowerStr e.1 ≠ "unknown" ∧ acc.maxPercentage < e.2 then
    ⟨e.1, e.2, true⟩
  else if toLowerStr e.1 ≠ "unknown" ∧ e.2 = acc.maxPercentage then
    ⟨if strLtJS e.1 acc.dominantCountry then e.1 else acc.dominantCountry,
     acc.maxPercentage, true⟩
  else acc

/-- Property access originMix[key] on the object modelled as an entry
list (JavaScript object keys are unique, so the first match is the
entry). -/
def lookupMix (mix : List (String × ℚ)) (key : String) : Option ℚ :=
  (mix.find? fun e => decide (e.1 = key)).map (fun e => e.2)

/-- The getDominantOrigin function of tree_logic.js. The origin_mix
object is an ordered entry list (for-in enumeration order); the
fallback country is an optional string. -/
def getDominantOrigin (originMix : Option (List (String × ℚ)))
    (fallbackCountry : Option String) : String :=
  match originMix with
  | some mix =>
    if mix.isEmpty then jsOrStr fallbackCountry "unknown"
    else
      let acc := mix.foldl originStep ⟨"unknown", 0, false⟩
      if acc.hasKnownOrigin = false ∧
          ((lookupMix mix "Unknown").any fun w => decide ((1 : ℚ)/2 ≤ w)) = true then
        "unknown"
      else if acc.dominantCountry = "unknown" ∧ jsStrTruthy fallbackCountry = true then
        fallbackCountry.getD ""
      else acc.dominantCountry
  | none => jsOrStr fallbackCountry "unknown"

/-- Character class [a-zA-Z0-9-_] of the sanitizeForCss regex. -/
def cssAllowed (c : Char) : Bool :=
  (97 ≤ c.toNat && c.toNat ≤ 122) || (65 ≤ c.toNat && c.toNat ≤ 90) ||
  (48 ≤ c.toNat && c.toNat ≤ 57) || c.toNat = 45 || c.toNat = 95

/-- Characters that may appear in the sanitizer output: lowercase
letters, digits, hyphen and underscore. -/
def cssOutputSafe (c : Char) : Bool :=
  (97 ≤ c.toNat && c.toNat ≤ 122) || (48 ≤ c.toNat && c.toNat ≤ 57) ||
  c.toNat = 45 || c.toNat = 95

/-- The sanitizeForCss function: a falsy or non-string input (modelled
as none or the empty string) yields the literal unknown; otherwise
every character outside the allowed class is replaced by an underscore
and the result is lowercased. -/
def sanitizeForCss (className : Option String) : String :=
  match className with
  | none => "unknown"
  | some s =>
    if s.data.isEmpty then "unknown"
    else toLowerStr ⟨s.data.map fun c => if cssAllowed c then c else '_'⟩

/-- Stable insertion of one entry into a list already sorted by
non-increasing weight, passing over entries of strictly larger or
equal weight so that earlier tied entries stay first. -/
def insertByWeightDesc (x : String × ℚ) : List (String × ℚ) → List (String × ℚ)
  | [] => [x]
  | y :: ys => if x.2 < y.2 then y :: insertByWeightDesc x ys else x :: y :: ys

/-- Stable sort by descending weight: the model of the JavaScript
stable Array.prototype.sort with the numeric comparator on weights
used by displayDetails. -/
def sortByWeightDesc : List (String × ℚ) → List (String × ℚ)
  | [] => []
  | x :: xs => insertByWeightDesc x (sortByWeightDesc xs)

/-- The rows that the displayDetails breakdown loop renders from a
present, non-empty origin_breakdown object: the entries sorted by
descending weight, keeping those of weight strictly above 0.001. -/
def displayBreakdownRows (breakdown : List (String × ℚ)) : List (String × ℚ) :=
  (sortByWeightDesc breakdown).filter fun e => decide ((1 : ℚ)/1000 < e.2)

/-- The breakdown list shown by displayDetails: none models the
literal N-slash-A text used when origin_breakdown is absent or has no
keys. -/
def breakdownRowsShown (data : PersonData) : Option (List (String × ℚ)) :=
  match data.details.bind (fun d => d.origin_breakdown) with
  | some b => if b.isEmpty then none else some (displayBreakdownRows b)
  | none => none

/-- Position of one laid-out node: x is the sibling axis, y the depth
axis, as d3.tree assigns them. -/
structure LayoutPos where
  x : ℚ
  y : ℚ

/-- One comparison of the running-minimum loop of updateTree, with an
Option accumulator in place of the Infinity sentinel. -/
def minStep (f : LayoutPos → ℚ) : Option ℚ → LayoutPos → Option ℚ
  | none, p => some (f p)
  | some m, p => if f p < m then some (f p) else some m

/-- One comparison of the running-maximum loop of updateTree, with an
Option accumulator in place of the negative-Infinity sentinel. -/
def maxStep (f : LayoutPos → ℚ) : Option ℚ → LayoutPos → Option ℚ
  | none, p => some (f p)
  | some m, p => if m < f p then some (f p) else some m

/-- The running-minimum loop of updateTree, with the empty-list reset
to zero. -/
def foldMinQ (f : LayoutPos → ℚ) (nodes : List LayoutPos) : ℚ :=
  (nodes.foldl (minStep f) none).getD 0

/-- The running-maximum loop of updateTree, with the empty-list reset
to zero. -/
def foldMaxQ (f : LayoutPos → ℚ) (nodes : List LayoutPos) : ℚ :=
  (nodes.foldl (maxStep f) none).getD 0

/-- Minimum sibling-axis coordinate over the visible nodes. -/
def treeMinX (nodes : List LayoutPos) : ℚ := foldMinQ (fun p => p.x) nodes

/-- Maximum sibling-axis coordinate over the visible nodes. -/
def treeMaxX (nodes : List LayoutPos) : ℚ := foldMaxQ (fun p => p.x) nodes

/-- Minimum depth-axis coordinate over the visible nodes. -/
def treeMinY (nodes : List LayoutPos) : ℚ := foldMinQ (fun p => p.y) nodes

/-- Maximum depth-axis coordinate over the visible nodes. -/
def treeMaxY (nodes : List LayoutPos) : ℚ := foldMaxQ (fun p => p.y) nodes

/-- The initial drawing width of tree_logic.js: the container client
width when above 600, else 600. -/
def calculatedInitialWidth (clientWidth : ℚ) : ℚ :=
  if 600 < clientWidth then clientWidth else 600

/-- The canvas size that updateTree of tree_logic.js assigns to the
svg element: the node extent plus margins plus buffer along each axis,
floored at the initial width and the initial height of 600. The
margins of tree_logic.js are top 40, right 120, bottom 40, left 180
and the buffers are 200 and 100. -/
def svgSize (clientWidth : ℚ) (nodes : List LayoutPos) : ℚ × ℚ :=
  (max (calculatedInitialWidth clientWidth)
     ((treeMaxY nodes - treeMinY nodes) + 180 + 120 + 200),
   max 600 ((treeMaxX nodes - treeMinX nodes) + 40 + 40 + 100))

/-- The translation assigned to the main group element by updateTree
of the unnamed script variant on every redraw, with its margins left
200 and top 50: the pair (left margin minus the minimal depth-axis
coordinate, top margin minus the minimal sibling-axis coordinate). -/
def updateTransformScriptVariant (nodes : List LayoutPos) : ℚ × ℚ :=
  (200 - treeMinY nodes, 50 - treeMinX nodes)

/-- The translation of the main group element across one updateTree
call of tree_logic.js: that script assigns the transform only once at
startup (and hands it to the zoom behavior), so updateTree leaves it
unchanged whatever the current node extent is. -/
def updateTransformTreeLogic (t : ℚ × ℚ) (nodes : List LayoutPos) : ℚ × ℚ := t

/-- The startup translation of the main group element of
tree_logic.js: its margins left 180 and top 40. -/
def initialTransformTreeLogic : ℚ × ℚ := (180, 40)

/-- A rendered node as the position-stash loop sees it: the fresh
layout position (x, y) and the previous-position shadow (x0, y0). -/
structure RenderNode where
  x : ℚ
  y : ℚ
  x0 : ℚ
  y0 : ℚ

/-- The stash loop at the end of updateTree: every laid-out node gets
its previous-position shadow overwritten with its fresh position. -/
def stashPositions (nodes : List RenderNode) : List RenderNode :=
  nodes.map fun d => { d with x0 := d.x, y0 := d.y }

/-- The identifier-bearing fields of one d3 node as the data-join key
function sees them: the optional id of the underlying record, the
node identifier slot (initially absent), and the two child-reference
lists that toggling swaps. -/
structure DNode where
  dataId : Option String
  id : Option String
  childrenRefs : List Nat
  hiddenRefs : List Nat

/-- toggleChildren acting on the reference lists of one node: the
identifier slots are untouched. -/
def toggleRefs (n : DNode) : DNode :=
  if n.childrenRefs.isEmpty then
    { n with childrenRefs := n.hiddenRefs, hiddenRefs := [] }
  else
    { n with hiddenRefs := n.childrenRefs, childrenRefs := [] }

/-- The data-join key function of updateTree: an already truthy node
identifier is returned as is; otherwise the record identifier is
assigned to the node when truthy; otherwise a synthetic identifier is
built from the pre-incremented global counter and assigned. Returns
the key, the new counter value and the possibly updated node. -/
def nodeKey (nodeIndex : Nat) (n : DNode) : String × Nat × DNode :=
  if jsStrTruthy n.id then (n.id.getD "", nodeIndex, n)
  else if jsStrTruthy n.dataId then
    (n.dataId.getD "", nodeIndex, { n with id := n.dataId })
  else
    ("node-" ++ toString (nodeIndex + 1), nodeIndex + 1,
     { n with id := some ("node-" ++ toString (nodeIndex + 1)) })

/-- One step of an interaction sequence seen from one node: either a
toggle of that node or one redraw cycle, which runs the data-join key
function over the node. -/
inductive CycleOp where
  | toggleOp : CycleOp
  | redrawOp : CycleOp

/-- Effect of one interaction step on the global counter and the
node. -/
def applyOp : CycleOp → Nat × DNode → Nat × DNode
  | .toggleOp, (ci, n) => (ci, toggleRefs n)
  | .redrawOp, (ci, n) => ((nodeKey ci n).2.1, (nodeKey ci n).2.2)

/-- Effect of a whole interaction sequence on the global counter and
the node. -/
def applyOps (ops : List CycleOp) (st : Nat × DNode) : Nat × DNode :=
  ops.foldl (fun st op => applyOp op st) st

/-- Result of the one-time document fetch: a network or parse failure
with its message, or a successfully parsed document (none models a
parsed null). -/
inductive FetchResult where
  | failure (message : String) : FetchResult
  | success (doc : Option PersonData) : FetchResult

/-- What the load path leaves on screen: one inline error message
replacing the drawing surface, or the rendered tree. -/
inductive LoadOutcome where
  | errorShown (message : String) : LoadOutcome
  | rendered : LoadOutcome
deriving DecidableEq

/-- Whether the outcome is the error presentation. -/
def LoadOutcome.isError : LoadOutcome → Bool
  | .errorShown _ => true
  | .rendered => false

/-- The load path of tree_logic.js: a rejected fetch reaches the catch
handler and displays one error; a parsed document that is null or
lacks a truthy name and a truthy id displays one error and returns;
every other document is rendered. -/
def loadFamilyTree : FetchResult → LoadOutcome
  | .failure msg => .errorShown ("Error loading data: " ++ msg ++ ".")
  | .success none => .errorShown "Failed to load family tree data."
  | .success (some doc) =>
    if jsStrTruthy doc.name = false ∧ jsStrTruthy doc.id = false then
      .errorShown "Failed to load family tree data."
    else .rendered

/-- The name text of the detail panel, with its N-slash-A fallback. -/
def displayedName (data : PersonData) : String := jsOrStr data.name "N/A"

/-- The year text of the detail panel, with its N-slash-A fallback
when details or year_info is absent. -/
def displayedYearInfo (data : PersonData) : String :=
  jsOrStr (data.details.bind fun d => d.year_info) "N/A"

/-- A concrete four-generation chain document (root, child, grandchild
and great-grandchild), freshly built, used as a concrete input for the
initial-collapse claims. -/
def chainTree : PTree :=
  PTree.node blankData
    [PTree.node blankData
      [PTree.node blankData
        [PTree.node blankData [] []] []] []] []

/-! Order theory of the lexicographic comparison. -/

theorem lexLt_irrefl (l : List Char) : lexLt l l = false := by
  induction l with
  | nil => rfl
  | cons a as ih => simp [lexLt, ih]

theorem lexLt_trans {a : List Char} :
    ∀ {b c : List Char}, lexLt a b = true → lexLt b c = true → lexLt a c = true := by
  induction a with
  | nil =>
    intro b c h1 h2
    cases b with
    | nil => simp [lexLt] at h1
    | cons y ys =>
      cases c with
      | nil => simp [lexLt] at h2
      | cons z zs => rfl
  | cons x xs ih =>
    intro b c h1 h2
    cases b with
    | nil => simp [lexLt] at h1
    | cons y ys =>
      cases c with
      | nil => simp [lexLt] at h2
      | cons z zs =>
        simp only [lexLt] at h1 h2 ⊢
        split at h1
        · split at h2
          · rw [if_pos (by omega)]
          · split at h2
            · rw [if_pos (by omega)]
            · simp at h2
        · split at h1
          · split at h2
            · rw [if_pos (by omega)]
            · split at h2
              · rw [if_neg (by omega), if_pos (by omega)]
                exact ih h1 h2
              · simp at h2
          · simp at h1

theorem lexLt_connex {a : List Char} :
    ∀ {b : List Char}, lexLt a b = false → lexLt b a = false → a = b := by
  induction a with
  | nil =>
    intro b h1 _
    cases b with
    | nil => rfl
    | cons y ys => simp [lexLt] at h1
  | cons x xs ih =>
    intro b h1 h2
    cases b with
    | nil => simp [lexLt] at h2
    | cons y ys =>
      simp only [lexLt] at h1 h2
      by_cases hxy : x.toNat < y.toNat
      · rw [if_pos hxy] at h1
        simp at h1
      · rw [if_neg hxy] at h1
        by_cases hxy2 : x.toNat = y.toNat
        · rw [if_pos hxy2] at h1
          by_cases hyx : y.toNat < x.toNat
          · exfalso
            omega
          · rw [if_neg hyx, if_pos (by omega)] at h2
            have hx : x = y := Char.ext (UInt32.ext hxy2)
            rw [hx, ih h1 h2]
        · by_cases hyx : y.toNat < x.toNat
          · rw [if_pos hyx] at h2
            simp at h2
          · exfalso
            omega

theorem strLtJS_irrefl (s : String) : strLtJS s s = false := lexLt_irrefl s.data

theorem strLtJS_trans {a b c : String} (h1 : strLtJS a b = true)
    (h2 : strLtJS b c = true) : strLtJS a c = true := lexLt_trans h1 h2

theorem strLtJS_connex {a b : String} (h1 : strLtJS a b = false)
    (h2 : strLtJS b a = false) : a = b := String.ext (lexLt_connex h1 h2)

/-- C3: the toggleChildren operation is its own inverse on every node
satisfying the visible-or-hidden exclusivity invariant of the data
model — applying it twice restores the visible and hidden child lists
exactly, so the whole subtree (every deeper descendant included) is
unchanged. -/
theorem toggleChildren_involutive (d : PersonData) (c h : List PTree)
    (hinv : c = [] ∨ h = []) :
    toggleChildren (toggleChildren (PTree.node d c h)) = PTree.node d c h := by
  rcases hinv with rfl | rfl
  · cases h with
    | nil => rfl
    | cons x xs => simp [toggleChildren]
  · cases c with
    | nil => rfl
    | cons x xs => simp [toggleChildren]

/-- Witness for C3 at a concrete expanded node with one child. -/
theorem toggleChildren_involutive_witness :
    (([PTree.node blankData [] []] : List PTree) = [] ∨ ([] : List PTree) = []) ∧
    toggleChildren (toggleChildren
        (PTree.node blankData [PTree.node blankData [] []] [])) =
      PTree.node blankData [PTree.node blankData [] []] [] :=
  ⟨Or.inr rfl,
   toggleChildren_involutive blankData [PTree.node blankData [] []] [] (Or.inr rfl)⟩

/-- C6: after the final loop of a layout pass, every laid-out node has
its previous-position shadow equal to its newly computed position. -/
theorem stashPositions_overwrites (nodes : List RenderNode) (n : RenderNode)
    (hn : n ∈ stashPositions nodes) : n.x0 = n.x ∧ n.y0 = n.y := by
  rcases List.mem_map.mp hn with ⟨m, _, rfl⟩
  exact ⟨rfl, rfl⟩

/-- Witness for C6 on a concrete one-node list. -/
theorem stashPositions_overwrites_witness :
    (⟨1, 2, 1, 2⟩ : RenderNode).x0 = (⟨1, 2, 1, 2⟩ : RenderNode).x ∧
    (⟨1, 2, 1, 2⟩ : RenderNode).y0 = (⟨1, 2, 1, 2⟩ : RenderNode).y :=
  stashPositions_overwrites [⟨1, 2, 3, 4⟩] ⟨1, 2, 1, 2⟩ (by simp [stashPositions])

/-! Character-level facts about the sanitizer. -/

theorem lower_in_range (n : Nat) (h1 : 65 ≤ n) (h2 : n ≤ 90) :
    97 ≤ (Char.ofNat (n + 32)).toNat ∧ (Char.ofNat (n + 32)).toNat ≤ 122 := by
  interval_cases n <;> decide

theorem jsCharToLower_safe (c : Char) (hc : cssAllowed c = true) :
    cssOutputSafe (jsCharToLower c) = true := by
  unfold jsCharToLower
  by_cases hup : 65 ≤ c.toNat ∧ c.toNat ≤ 90
  · rw [if_pos hup]
    have h := lower_in_range c.toNat hup.1 hup.2
    simp only [cssOutputSafe, Bool.or_eq_true, Bool.and_eq_true, decide_eq_true_eq]
    omega
  · rw [if_neg hup]
    simp only [cssAllowed, cssOutputSafe, Bool.or_eq_true, Bool.and_eq_true,
      decide_eq_true_eq] at hc ⊢
    omega

/-- C10: the sanitizer always returns a non-empty string; absent,
non-string or empty input yields the literal unknown; every character
of the output is a lowercase letter, a digit, a hyphen or an
underscore. -/
theorem sanitizeForCss_spec (input : Option String) :
    (sanitizeForCss input).data ≠ [] ∧
    ((input = none ∨ input = some "") → sanitizeForCss input = "unknown") ∧
    ∀ c ∈ (sanitizeForCss input).data, cssOutputSafe c = true := by
  match input with
  | none => exact ⟨by decide, fun _ => rfl, by decide⟩
  | some s =>
    by_cases hs : s.data.isEmpty
    · have he : sanitizeForCss (some s) = "unknown" := by
        simp [sanitizeForCss, hs]
      refine ⟨by rw [he]; decide, fun _ => he, by rw [he]; decide⟩
    · have he : sanitizeForCss (some s) =
          toLowerStr ⟨s.data.map fun c => if cssAllowed c then c else '_'⟩ := by
        simp [sanitizeForCss, hs]
      refine ⟨?_, ?_, ?_⟩
      · rw [he]
        show ((s.data.map fun c => if cssAllowed c then c else '_').map jsCharToLower) ≠ []
        simp only [ne_eq, List.map_eq_nil_iff]
        intro hnil
        rw [hnil] at hs
        simp at hs
      · intro hcon
        rcases hcon with hcon | hcon
        · cases hcon
        · have : s = "" := by injection hcon
          rw [this] at hs
          simp at hs
      · intro c hc
        rw [he] at hc
        have hc2 : c ∈ (s.data.map fun x => if cssAllowed x then x else '_').map jsCharToLower := hc
        rcases List.mem_map.mp hc2 with ⟨b, hb, rfl⟩
        rcases List.mem_map.mp hb with ⟨a, _, rfl⟩
        apply jsCharToLower_safe
        by_cases hca : cssAllowed a = true
        · rw [if_pos hca]
          exact hca
        · rw [if_neg hca]
          decide

/-- Witness for C10: the empty string maps to unknown, and a character
of the sanitized form of a mixed string is in the safe class. -/
theorem sanitizeForCss_spec_witness :
    sanitizeForCss (some "") = "unknown" ∧ cssOutputSafe 'a' = true :=
  ⟨(sanitizeForCss_spec (some "")).2.1 (Or.inr rfl),
   (sanitizeForCss_spec (some "Ab c")).2.2 'a' (by decide)⟩

/-! Running minimum and maximum of the extent loops. -/

theorem minStep_fold_some (f : LayoutPos → ℚ) (nodes : List LayoutPos) :
    ∀ m : ℚ, ∃ m2, nodes.foldl (minStep f) (some m) = some m2 ∧ m2 ≤ m ∧
      ∀ p ∈ nodes, m2 ≤ f p := by
  induction nodes with
  | nil =>
    intro m
    exact ⟨m, rfl, le_refl m, by simp⟩
  | cons q qs ih =>
    intro m
    have hstep : minStep f (some m) q = some (if f q < m then f q else m) := by
      simp only [minStep]
      split <;> rfl
    rw [List.foldl_cons, hstep]
    obtain ⟨m2, hfold, hle, hall⟩ := ih (if f q < m then f q else m)
    refine ⟨m2, hfold, ?_, ?_⟩
    · by_cases h : f q < m
      · rw [if_pos h] at hle
        exact le_of_lt (lt_of_le_of_lt hle h)
      · rwa [if_neg h] at hle
    · intro p hp
      rcases List.mem_cons.mp hp with rfl | hp2
      · by_cases h : f p < m
        · rw [if_pos h] at hle
          exact hle
        · rw [if_neg h] at hle
          exact le_trans hle (le_of_not_lt h)
      · exact hall p hp2

theorem maxStep_fold_some (f : LayoutPos → ℚ) (nodes : List LayoutPos) :
    ∀ m : ℚ, ∃ m2, nodes.foldl (maxStep f) (some m) = some m2 ∧ m ≤ m2 ∧
      ∀ p ∈ nodes, f p ≤ m2 := by
  induction nodes with
  | nil =>
    intro m
    exact ⟨m, rfl, le_refl m, by simp⟩
  | cons q qs ih =>
    intro m
    have hstep : maxStep f (some m) q = some (if m < f q then f q else m) := by
      simp only [maxStep]
      split <;> rfl
    rw [List.foldl_cons, hstep]
    obtain ⟨m2, hfold, hle, hall⟩ := ih (if m < f q then f q else m)
    refine ⟨m2, hfold, ?_, ?_⟩
    · by_cases h : m < f q
      · rw [if_pos h] at hle
        exact le_of_lt (lt_of_lt_of_le h hle)
      · rwa [if_neg h] at hle
    · intro p hp
      rcases List.mem_cons.mp hp with rfl | hp2
      · by_cases h : m < f p
        · rw [if_pos h] at hle
          exact hle
        · rw [if_neg h] at hle
          exact le_trans (le_of_not_lt h) hle
      · exact hall p hp2

theorem foldMinQ_le (f : LayoutPos → ℚ) (nodes : List LayoutPos) (p : LayoutPos)
    (hp : p ∈ nodes) : foldMinQ f nodes ≤ f p := by
  cases nodes with
  | nil => cases hp
  | cons q qs =>
    unfold foldMinQ
    rw [List.foldl_cons]
    have hstep : minStep f none q = some (f q) := rfl
    rw [hstep]
    obtain ⟨m2, hfold, hle, hall⟩ := minStep_fold_some f qs (f q)
    rw [hfold]
    rcases List.mem_cons.mp hp with rfl | hp2
    · exact hle
    · exact hall p hp2

theorem le_foldMaxQ (f : LayoutPos → ℚ) (nodes : List LayoutPos) (p : LayoutPos)
    (hp : p ∈ nodes) : f p ≤ foldMaxQ f nodes := by
  cases nodes with
  | nil => cases hp
  | cons q qs =>
    unfold foldMaxQ
    rw [List.foldl_cons]
    have hstep : maxStep f none q = some (f q) := rfl
    rw [hstep]
    obtain ⟨m2, hfold, hle, hall⟩ := maxStep_fold_some f qs (f q)
    rw [hfold]
    rcases List.mem_cons.mp hp with rfl | hp2
    · exact hle
    · exact hall p hp2

/-- C8: the bounds computed by a layout pass contain the position of
every visible node, the empty visible set yields the zero point
without any failure, and the canvas dimensions assigned to the svg
element are floored at the initial width (itself at least 600) and the
initial height 600. -/
theorem svgSize_spec (clientWidth : ℚ) (nodes : List LayoutPos) :
    (∀ p ∈ nodes,
       treeMinX nodes ≤ p.x ∧ p.x ≤ treeMaxX nodes ∧
       treeMinY nodes ≤ p.y ∧ p.y ≤ treeMaxY nodes) ∧
    (nodes = [] →
       treeMinX nodes = 0 ∧ treeMaxX nodes = 0 ∧
       treeMinY nodes = 0 ∧ treeMaxY nodes = 0) ∧
    calculatedInitialWidth clientWidth ≤ (svgSize clientWidth nodes).1 ∧
    600 ≤ (svgSize clientWidth nodes).2 ∧
    600 ≤ calculatedInitialWidth clientWidth := by
  refine ⟨?_, ?_, ?_, ?_, ?_⟩
  · intro p hp
    exact ⟨foldMinQ_le (fun q => q.x) nodes p hp, le_foldMaxQ (fun q => q.x) nodes p hp,
      foldMinQ_le (fun q => q.y) nodes p hp, le_foldMaxQ (fun q => q.y) nodes p hp⟩
  · rintro rfl
    exact ⟨rfl, rfl, rfl, rfl⟩
  · exact le_max_left _ _
  · exact le_max_left _ _
  · unfold calculatedInitialWidth
    by_cases h : (600 : ℚ) < clientWidth
    · rw [if_pos h]
      exact le_of_lt h
    · rw [if_neg h]

/-- Witness for C8 at a concrete one-node layout. -/
theorem svgSize_spec_witness :
    treeMinX [⟨3, 7⟩] ≤ (⟨3, 7⟩ : LayoutPos).x ∧
    (⟨3, 7⟩ : LayoutPos).x ≤ treeMaxX [⟨3, 7⟩] ∧
    treeMinY [⟨3, 7⟩] ≤ (⟨3, 7⟩ : LayoutPos).y ∧
    (⟨3, 7⟩ : LayoutPos).y ≤ treeMaxY [⟨3, 7⟩] :=
  (svgSize_spec 0 [⟨3, 7⟩]).1 ⟨3, 7⟩ (by simp)

/-- C5 (amended): in the unnamed script variant, every updateTree call
recomputes the translation of the main group element as the pair of
the left margin minus the minimal depth-axis coordinate and the top
margin minus the minimal sibling-axis coordinate, so every visible
node renders at or beyond both margins however far the extent has
grown left or up. -/
theorem updateTransform_script_variant_spec (nodes : List LayoutPos) :
    updateTransformScriptVariant nodes =
      (200 - treeMinY nodes, 50 - treeMinX nodes) ∧
    ∀ p ∈ nodes,
      200 ≤ (updateTransformScriptVariant nodes).1 + p.y ∧
      50 ≤ (updateTransformScriptVariant nodes).2 + p.x := by
  refine ⟨rfl, fun p hp => ⟨?_, ?_⟩⟩
  · have h := foldMinQ_le (fun q => q.y) nodes p hp
    show 200 ≤ 200 - treeMinY nodes + p.y
    unfold treeMinY at *
    linarith
  · have h := foldMinQ_le (fun q => q.x) nodes p hp
    show 50 ≤ 50 - treeMinX nodes + p.x
    unfold treeMinX at *
    linarith

/-- Witness for C5 at a concrete node far to the left of the origin. -/
theorem updateTransform_script_variant_witness :
    200 ≤ (updateTransformScriptVariant [⟨0, -500⟩]).1 + (⟨0, -500⟩ : LayoutPos).y ∧
    50 ≤ (updateTransformScriptVariant [⟨0, -500⟩]).2 + (⟨0, -500⟩ : LayoutPos).x :=
  (updateTransform_script_variant_spec [⟨0, -500⟩]).2 ⟨0, -500⟩ (by simp)

/-- Counterexample for C5 as stated: in tree_logic.js the group keeps
its startup translation (180, 40) across updateTree, which differs
from the recomputed pair once a node sits at a negative depth-axis
coordinate. -/
theorem updateTransform_treeLogic_counterexample :
    updateTransformTreeLogic initialTransformTreeLogic [⟨0, -500⟩] ≠
      (180 - treeMinY [⟨0, -500⟩], 40 - treeMinX [⟨0, -500⟩]) := by
  have h1 : treeMinY [⟨0, -500⟩] = -500 := rfl
  have h2 : treeMinX [⟨0, -500⟩] = 0 := rfl
  rw [h1, h2]
  intro h
  have h3 := congrArg Prod.fst h
  simp only [updateTransformTreeLogic, initialTransformTreeLogic] at h3
  norm_num at h3

/-! Structural facts about collapsing. -/

theorem PTree.inductionOn {P : PTree → Prop}
    (step : ∀ d c h, (∀ t ∈ c, P t) → (∀ t ∈ h, P t) → P (PTree.node d c h))
    (t : PTree) : P t := by
  have key : ∀ n : Nat, ∀ t : PTree, sizeOf t ≤ n → P t := by
    intro n
    induction n with
    | zero =>
      intro t ht
      cases t with
      | node d c h =>
        simp only [PTree.node.sizeOf_spec] at ht
        omega
    | succ n ih =>
      intro t ht
      cases t with
      | node d c h =>
        apply step
        · intro x hx
          apply ih
          have hlt := List.sizeOf_lt_of_mem hx
          simp only [PTree.node.sizeOf_spec] at ht
          omega
        · intro x hx
          apply ih
          have hlt := List.sizeOf_lt_of_mem hx
          simp only [PTree.node.sizeOf_spec] at ht
          omega
  exact key (sizeOf t) t (le_refl _)

theorem visibleCount_collapseRecursively (t : PTree) :
    visibleCount (collapseRecursively t) = 1 := by
  cases t with
  | node d c h =>
    cases c with
    | nil => rfl
    | cons x xs => rfl

theorem visibleCountList_collapseList (l : List PTree) :
    visibleCountList (collapseList l) = l.length := by
  induction l with
  | nil => rfl
  | cons t ts ih =>
    simp only [collapseList, visibleCountList, List.length_cons,
      visibleCount_collapseRecursively, ih]
    omega

theorem visibleCountList_initial (c : List PTree) :
    visibleCountList (c.map fun child =>
      match child with
      | .node d2 c2 h2 => PTree.node d2 (collapseList c2) h2) =
    c.length + (c.map fun x => x.children.length).sum := by
  induction c with
  | nil => rfl
  | cons x xs ih =>
    cases x with
    | node d2 c2 h2 =>
      simp only [List.map_cons, visibleCountList, visibleCount, List.sum_cons,
        PTree.children, List.length_cons, ih, visibleCountList_collapseList]
      omega

theorem hiddenFreeList_mem {l : List PTree} (hl : hiddenFreeList l = true) :
    ∀ t ∈ l, hiddenFree t = true := by
  induction l with
  | nil =>
    intro t ht
    cases ht
  | cons x xs ih =>
    simp only [hiddenFreeList, Bool.and_eq_true] at hl
    intro t ht
    rcases List.mem_cons.mp ht with rfl | h2
    · exact hl.1
    · exact ih hl.2 t h2

theorem totalCountList_collapseList (l : List PTree)
    (hl : ∀ t ∈ l, totalCount (collapseRecursively t) = totalCount t) :
    totalCountList (collapseList l) = totalCountList l := by
  induction l with
  | nil => rfl
  | cons x xs ih =>
    simp only [collapseList, totalCountList]
    rw [hl x (List.mem_cons_self x xs), ih (fun t ht => hl t (List.mem_cons_of_mem x ht))]

theorem totalCount_collapseRecursively (t : PTree) :
    hiddenFree t = true → totalCount (collapseRecursively t) = totalCount t := by
  induction t using PTree.inductionOn with
  | step d c h ihc ihh =>
    intro ht
    simp only [hiddenFree, Bool.and_eq_true, List.isEmpty_iff] at ht
    obtain ⟨hh, hc⟩ := ht
    subst hh
    cases c with
    | nil => rfl
    | cons x xs =>
      have hred : collapseRecursively (PTree.node d (x :: xs) []) =
          PTree.node d [] (collapseList (x :: xs)) := by
        simp [collapseRecursively]
      rw [hred]
      have hcl : totalCountList (collapseList (x :: xs)) = totalCountList (x :: xs) :=
        totalCountList_collapseList (x :: xs)
          (fun t' ht' => ihc t' ht' (hiddenFreeList_mem hc t' ht'))
      show 1 + totalCountList [] + totalCountList (collapseList (x :: xs)) =
        1 + totalCountList (x :: xs) + totalCountList []
      rw [hcl]
      show 1 + 0 + totalCountList (x :: xs) = 1 + totalCountList (x :: xs) + 0
      omega

theorem totalCountList_map_initial (c : List PTree)
    (hc : hiddenFreeList c = true) :
    totalCountList (c.map fun child =>
      match child with
      | .node d2 c2 h2 => PTree.node d2 (collapseList c2) h2) = totalCountList c := by
  induction c with
  | nil => rfl
  | cons x xs ih =>
    simp only [hiddenFreeList, Bool.and_eq_true] at hc
    cases x with
    | node d2 c2 h2 =>
      simp only [List.map_cons, totalCountList, totalCount]
      have hx := hc.1
      simp only [hiddenFree, Bool.and_eq_true, List.isEmpty_iff] at hx
      rw [totalCountList_collapseList c2 (fun t htm =>
          totalCount_collapseRecursively t (hiddenFreeList_mem hx.2 t htm)),
        ih hc.2]

/-- C1 (amended): after the one-time initial collapse of a freshly
built tree, the visible nodes are the root, its children and its
grandchildren — their number is 1 plus the child count plus the
grandchild count, not 1 plus the child count alone — while no node is
lost: the total node count over visible and hidden lists is
preserved, so all deeper descendants stay reachable through hidden
lists only. -/
theorem initialCollapse_spec (t : PTree) (ht : hiddenFree t = true) :
    visibleCount (initialCollapse t) =
      1 + t.children.length + (t.children.map fun c => c.children.length).sum ∧
    totalCount (initialCollapse t) = totalCount t := by
  constructor
  · cases t with
    | node d c h =>
      have h1 : (PTree.node d c h).children = c := rfl
      rw [h1]
      have h2 : visibleCount (initialCollapse (PTree.node d c h)) =
          1 + visibleCountList (c.map fun child =>
            match child with
            | .node d2 c2 h2 => PTree.node d2 (collapseList c2) h2) := rfl
      rw [h2, visibleCountList_initial]
      omega
  · cases t with
    | node d c h =>
      simp only [hiddenFree, Bool.and_eq_true, List.isEmpty_iff] at ht
      have h2 : totalCount (initialCollapse (PTree.node d c h)) =
          1 + totalCountList (c.map fun child =>
            match child with
            | .node d2 c2 h2 => PTree.node d2 (collapseList c2) h2) + totalCountList h := rfl
      rw [h2, totalCountList_map_initial c ht.2]
      rfl

/-- Witness for C1 on the concrete four-generation chain document. -/
theorem initialCollapse_spec_witness :
    visibleCount (initialCollapse chainTree) =
      1 + chainTree.children.length +
        (chainTree.children.map fun c => c.children.length).sum ∧
    totalCount (initialCollapse chainTree) = totalCount chainTree :=
  initialCollapse_spec chainTree (by decide)

/-- Counterexample for C1 as stated: on the four-generation chain the
initial collapse leaves three visible nodes (root, child and
grandchild), not 1 plus the root child count, which is 2 — the
grandchildren themselves stay visible, only their children are moved
to hidden lists. -/
theorem initialCollapse_counterexample :
    hiddenFree chainTree = true ∧
    visibleCount (initialCollapse chainTree) = 3 ∧
    1 + chainTree.children.length = 2 ∧
    visibleCount (initialCollapse chainTree) ≠ 1 + chainTree.children.length := by
  exact ⟨by decide, by decide, by decide, by decide⟩

/-! The stable descending sort of the detail-panel breakdown. -/

theorem insertByWeightDesc_mem (x e : String × ℚ) (l : List (String × ℚ)) :
    e ∈ insertByWeightDesc x l ↔ e = x ∨ e ∈ l := by
  induction l with
  | nil => simp [insertByWeightDesc]
  | cons y ys ih =>
    simp only [insertByWeightDesc]
    split
    · simp only [List.mem_cons, ih]
      tauto
    · simp only [List.mem_cons]

theorem insertByWeightDesc_pairwise (x : String × ℚ) (l : List (String × ℚ))
    (hl : l.Pairwise fun a b => b.2 ≤ a.2) :
    (insertByWeightDesc x l).Pairwise fun a b => b.2 ≤ a.2 := by
  induction l with
  | nil => simp [insertByWeightDesc]
  | cons y ys ih =>
    rcases List.pairwise_cons.mp hl with ⟨hy, hys⟩
    simp only [insertByWeightDesc]
    by_cases h : x.2 < y.2
    · rw [if_pos h]
      apply List.pairwise_cons.mpr
      refine ⟨?_, ih hys⟩
      intro b hb
      rcases (insertByWeightDesc_mem x b ys).mp hb with rfl | hbm
      · exact le_of_lt h
      · exact hy b hbm
    · rw [if_neg h]
      apply List.pairwise_cons.mpr
      refine ⟨?_, hl⟩
      intro b hb
      rcases List.mem_cons.mp hb with rfl | hbm
      · exact le_of_not_lt h
      · exact le_trans (hy b hbm) (le_of_not_lt h)

theorem sortByWeightDesc_pairwise (l : List (String × ℚ)) :
    (sortByWeightDesc l).Pairwise fun a b => b.2 ≤ a.2 := by
  induction l with
  | nil => simp [sortByWeightDesc]
  | cons x xs ih => exact insertByWeightDesc_pairwise x _ ih

theorem sortByWeightDesc_mem (e : String × ℚ) (l : List (String × ℚ)) :
    e ∈ sortByWeightDesc l ↔ e ∈ l := by
  induction l with
  | nil => simp [sortByWeightDesc]
  | cons x xs ih =>
    simp only [sortByWeightDesc]
    rw [insertByWeightDesc_mem]
    simp only [List.mem_cons, ih]

/-- C7 (amended): the detail-panel breakdown rows are ordered by
non-increasing weight (descending, but tied weights may repeat, so
not strictly descending), and an entry is shown exactly when its
weight is strictly above 0.001 — entries at or below the threshold
are omitted. -/
theorem displayBreakdownRows_spec (breakdown : List (String × ℚ)) :
    (displayBreakdownRows breakdown).Pairwise (fun a b => b.2 ≤ a.2) ∧
    (∀ e ∈ displayBreakdownRows breakdown, (1 : ℚ)/1000 < e.2 ∧ e ∈ breakdown) ∧
    (∀ e ∈ breakdown, (1 : ℚ)/1000 < e.2 → e ∈ displayBreakdownRows breakdown) := by
  refine ⟨?_, ?_, ?_⟩
  · exact (sortByWeightDesc_pairwise breakdown).filter _
  · intro e he
    rcases List.mem_filter.mp he with ⟨hmem, hw⟩
    exact ⟨by simpa using hw, (sortByWeightDesc_mem e breakdown).mp hmem⟩
  · intro e he hw
    exact List.mem_filter.mpr ⟨(sortByWeightDesc_mem e breakdown).mpr he, by simpa using hw⟩

/-- Witness for C7: a heavy entry of a concrete breakdown is kept. -/
theorem displayBreakdownRows_spec_witness :
    (1 : ℚ)/1000 < (("Ireland", (3 : ℚ)/5)).2 ∧
    ("Ireland", (3 : ℚ)/5) ∈ [("Ireland", (3 : ℚ)/5), ("England", (2 : ℚ)/5)] :=
  (displayBreakdownRows_spec [("Ireland", (3 : ℚ)/5), ("England", (2 : ℚ)/5)]).2.1
    ("Ireland", (3 : ℚ)/5)
    (by
      apply List.mem_filter.mpr
      refine ⟨?_, by simp only [decide_eq_true_eq]; norm_num⟩
      rw [sortByWeightDesc_mem]
      simp)

/-- Counterexample for C7 as stated: with two tied weights the
rendered rows are not in strictly descending weight order. -/
theorem displayBreakdownRows_counterexample :
    ¬ (displayBreakdownRows [("Ireland", (1 : ℚ)/2), ("England", (1 : ℚ)/2)]).Pairwise
        (fun a b => b.2 < a.2) := by
  have heval : displayBreakdownRows [("Ireland", (1 : ℚ)/2), ("England", (1 : ℚ)/2)] =
      [("Ireland", (1 : ℚ)/2), ("England", (1 : ℚ)/2)] := by
    have hlt : ¬ ((1 : ℚ)/2 < (1 : ℚ)/2) := lt_irrefl _
    have hs : sortByWeightDesc [("Ireland", (1 : ℚ)/2), ("England", (1 : ℚ)/2)] =
        [("Ireland", (1 : ℚ)/2), ("England", (1 : ℚ)/2)] := by
      simp [sortByWeightDesc, insertByWeightDesc, hlt]
    have h2 : ((1 : ℚ)/1000 < (1 : ℚ)/2) := by norm_num
    unfold displayBreakdownRows
    rw [hs]
    rw [List.filter_cons_of_pos (by simpa using h2),
      List.filter_cons_of_pos (by simpa using h2), List.filter_nil]
  rw [heval]
  intro hp
  rcases List.pairwise_cons.mp hp with ⟨hfirst, _⟩
  have := hfirst ("England", (1 : ℚ)/2) (by simp)
  norm_num at this

/-! Stability of node identifiers. -/

theorem applyOps_id_stable (ops : List CycleOp) :
    ∀ st : Nat × DNode, ∀ i : String, st.2.id = some i → i.data ≠ [] →
      (applyOps ops st).2.id = some i := by
  induction ops with
  | nil =>
    intro st i hi _
    exact hi
  | cons op ops ih =>
    intro st i hi hne
    cases st with
    | mk ci n =>
      show (applyOps ops (applyOp op (ci, n))).2.id = some i
      apply ih _ i _ hne
      cases op with
      | toggleOp =>
        show (toggleRefs n).id = some i
        unfold toggleRefs
        split <;> exact hi
      | redrawOp =>
        show (nodeKey ci n).2.2.id = some i
        have htr : jsStrTruthy n.id = true := by
          have hn : n.id = some i := hi
          rw [hn]
          simpa [jsStrTruthy, List.isEmpty_iff] using hne
        unfold nodeKey
        rw [if_pos htr]
        exact hi

/-- C4: a node whose identifier slot is still unassigned gets, on its
first data join, the record identifier when truthy and a fresh
synthetic counter identifier otherwise; that identifier is stored on
the node and no sequence of toggle and redraw cycles ever changes it
afterwards. -/
theorem nodeKey_stable (n : DNode) (c : Nat) (hn : n.id = none) :
    (nodeKey c n).2.2.id = some (nodeKey c n).1 ∧
    (nodeKey c n).1 =
      (if jsStrTruthy n.dataId = true then n.dataId.getD ""
       else "node-" ++ toString (c + 1)) ∧
    ∀ ops : List CycleOp,
      (applyOps ops ((nodeKey c n).2.1, (nodeKey c n).2.2)).2.id =
        some (nodeKey c n).1 := by
  have hfalse : ¬ (jsStrTruthy n.id = true) := by
    rw [hn]
    simp [jsStrTruthy]
  by_cases hd : jsStrTruthy n.dataId = true
  · obtain ⟨s, hs⟩ : ∃ s, n.dataId = some s := by
      cases hmd : n.dataId with
      | none => rw [hmd] at hd; simp [jsStrTruthy] at hd
      | some s => exact ⟨s, rfl⟩
    have hsne : s.data ≠ [] := by
      rw [hs] at hd
      simpa [jsStrTruthy, List.isEmpty_iff] using hd
    have hkey : nodeKey c n = (s, c, { n with id := some s }) := by
      unfold nodeKey
      rw [if_neg hfalse, if_pos hd, hs]
      rfl
    rw [hkey]
    refine ⟨rfl, ?_, ?_⟩
    · rw [if_pos hd, hs]
      rfl
    · intro ops
      exact applyOps_id_stable ops (c, { n with id := some s }) s rfl hsne
  · have hkey : nodeKey c n =
        ("node-" ++ toString (c + 1), c + 1,
         { n with id := some ("node-" ++ toString (c + 1)) }) := by
      unfold nodeKey
      rw [if_neg hfalse, if_neg hd]
    rw [hkey]
    have hne : ("node-" ++ toString (c + 1)).data ≠ [] := by
      rw [String.data_append]
      simp
    refine ⟨rfl, ?_, ?_⟩
    · rw [if_neg hd]
    · intro ops
      exact applyOps_id_stable ops _ _ rfl hne

/-- Witness for C4: a node with no record identifier gets a synthetic
one that survives a concrete toggle-and-redraw sequence. -/
theorem nodeKey_stable_witness :
    (applyOps [CycleOp.toggleOp, CycleOp.redrawOp]
       ((nodeKey 0 ⟨none, none, [], []⟩).2.1,
        (nodeKey 0 ⟨none, none, [], []⟩).2.2)).2.id =
      some (nodeKey 0 ⟨none, none, [], []⟩).1 :=
  (nodeKey_stable ⟨none, none, [], []⟩ 0 rfl).2.2
    [CycleOp.toggleOp, CycleOp.redrawOp]

/-- C9: a rejected fetch and a parsed document whose root lacks both a
truthy name and a truthy id are handled identically — one inline error
message replaces the drawing surface and nothing is rendered — while a
document whose root has a truthy name or id is always rendered,
whatever the other optional fields hold; absent details, origin mix,
country or breakdown fields degrade to neutral defaults instead of
failing. -/
theorem loadFamilyTree_spec :
    (∀ msg, (loadFamilyTree (FetchResult.failure msg)).isError = true) ∧
    (loadFamilyTree (FetchResult.success none)).isError = true ∧
    (∀ doc : PersonData, jsStrTruthy doc.name = false → jsStrTruthy doc.id = false →
       loadFamilyTree (FetchResult.success (some doc)) =
         LoadOutcome.errorShown "Failed to load family tree data.") ∧
    (∀ doc : PersonData, (jsStrTruthy doc.name = true ∨ jsStrTruthy doc.id = true) →
       loadFamilyTree (FetchResult.success (some doc)) = LoadOutcome.rendered) ∧
    displayedName blankData = "N/A" ∧
    displayedYearInfo blankData = "N/A" ∧
    breakdownRowsShown blankData = none ∧
    (∀ fb, getDominantOrigin none fb = jsOrStr fb "unknown") := by
  refine ⟨fun msg => rfl, rfl, ?_, ?_, rfl, rfl, rfl, fun fb => rfl⟩
  · intro doc h1 h2
    show (if jsStrTruthy doc.name = false ∧ jsStrTruthy doc.id = false then
        LoadOutcome.errorShown "Failed to load family tree data."
      else LoadOutcome.rendered) =
      LoadOutcome.errorShown "Failed to load family tree data."
    rw [if_pos ⟨h1, h2⟩]
  · intro doc h
    show (if jsStrTruthy doc.name = false ∧ jsStrTruthy doc.id = false then
        LoadOutcome.errorShown "Failed to load family tree data."
      else LoadOutcome.rendered) = LoadOutcome.rendered
    rw [if_neg (by rcases h with h | h <;> simp [h])]

/-- Witness for C9: a named root renders, an anonymous root shows the
same inline error as a failed fetch. -/
theorem loadFamilyTree_spec_witness :
    loadFamilyTree (FetchResult.success (some { blankData with name := some "Root" })) =
      LoadOutcome.rendered ∧
    loadFamilyTree (FetchResult.success (some blankData)) =
      LoadOutcome.errorShown "Failed to load family tree data." :=
  ⟨loadFamilyTree_spec.2.2.2.1 { blankData with name := some "Root" } (Or.inl (by decide)),
   loadFamilyTree_spec.2.2.1 blankData rfl rfl⟩

/-! The for-in loop of getDominantOrigin. -/

theorem toLowerStr_unknown : toLowerStr "unknown" = "unknown" := by decide

theorem originStep_skip (acc : OriginAcc) (e : String × ℚ)
    (he : toLowerStr e.1 = "unknown") : originStep acc e = acc := by
  unfold originStep
  rw [if_neg (fun hand => hand.1 he), if_neg (fun hand => hand.1 he)]

theorem foldl_originStep_known (es : List (String × ℚ)) :
    ∀ cw : String × ℚ, toLowerStr cw.1 ≠ "unknown" →
    ∃ c2 w2, es.foldl originStep ⟨cw.1, cw.2, true⟩ = ⟨c2, w2, true⟩ ∧
      toLowerStr c2 ≠ "unknown" ∧
      ((c2, w2) = cw ∨ (c2, w2) ∈ es) ∧
      cw.2 ≤ w2 ∧
      (∀ e ∈ es, toLowerStr e.1 ≠ "unknown" → e.2 ≤ w2) ∧
      (w2 = cw.2 → strLtJS cw.1 c2 = false) ∧
      (∀ e ∈ es, toLowerStr e.1 ≠ "unknown" → e.2 = w2 → strLtJS e.1 c2 = false) := by
  induction es with
  | nil =>
    intro cw hcw
    exact ⟨cw.1, cw.2, rfl, hcw, Or.inl rfl, le_refl _, by simp,
      fun _ => strLtJS_irrefl _, by simp⟩
  | cons e rest ih =>
    intro cw hcw
    rw [List.foldl_cons]
    by_cases hke : toLowerStr e.1 = "unknown"
    · rw [originStep_skip _ _ hke]
      obtain ⟨c2, w2, hfold, hknown, hmem, hle, hmax, htie0, htie⟩ := ih cw hcw
      refine ⟨c2, w2, hfold, hknown, ?_, hle, ?_, htie0, ?_⟩
      · rcases hmem with h | h
        · exact Or.inl h
        · exact Or.inr (List.mem_cons_of_mem _ h)
      · intro x hx hkx
        rcases List.mem_cons.mp hx with rfl | hx2
        · exact absurd hke hkx
        · exact hmax x hx2 hkx
      · intro x hx hkx hxw
        rcases List.mem_cons.mp hx with rfl | hx2
        · exact absurd hke hkx
        · exact htie x hx2 hkx hxw
    · have hstep : originStep ⟨cw.1, cw.2, true⟩ e =
          (if cw.2 < e.2 then ⟨e.1, e.2, true⟩
           else if e.2 = cw.2 then
             ⟨if strLtJS e.1 cw.1 = true then e.1 else cw.1, cw.2, true⟩
           else ⟨cw.1, cw.2, true⟩) := by
        unfold originStep
        by_cases h : cw.2 < e.2
        · rw [if_pos ⟨hke, h⟩, if_pos h]
        · rw [if_neg (fun hand => h hand.2), if_neg h]
          by_cases h2 : e.2 = cw.2
          · rw [if_pos ⟨hke, h2⟩, if_pos h2]
          · rw [if_neg (fun hand => h2 hand.2), if_neg h2]
      rw [hstep]
      by_cases hlt : cw.2 < e.2
      · rw [if_pos hlt]
        obtain ⟨c2, w2, hfold, hknown, hmem, hle, hmax, htie0, htie⟩ := ih e hke
        refine ⟨c2, w2, hfold, hknown, ?_, ?_, ?_, ?_, ?_⟩
        · rcases hmem with h | h
          · exact Or.inr (List.mem_cons.mpr (Or.inl h))
          · exact Or.inr (List.mem_cons_of_mem _ h)
        · exact le_of_lt (lt_of_lt_of_le hlt hle)
        · intro x hx hkx
          rcases List.mem_cons.mp hx with rfl | hx2
          · exact hle
          · exact hmax x hx2 hkx
        · intro hw2
          exfalso
          rw [hw2] at hle
          exact absurd hlt (not_lt.mpr hle)
        · intro x hx hkx hxw
          rcases List.mem_cons.mp hx with rfl | hx2
          · exact htie0 hxw.symm
          · exact htie x hx2 hkx hxw
      · rw [if_neg hlt]
        by_cases heq : e.2 = cw.2
        · rw [if_pos heq]
          have hkc : toLowerStr (if strLtJS e.1 cw.1 = true then e.1 else cw.1) ≠ "unknown" := by
            by_cases hsw : strLtJS e.1 cw.1 = true
            · rw [if_pos hsw]
              exact hke
            · rw [if_neg hsw]
              exact hcw
          obtain ⟨c2, w2, hfold, hknown, hmem, hle, hmax, htie0, htie⟩ :=
            ih ((if strLtJS e.1 cw.1 = true then e.1 else cw.1), cw.2) hkc
          refine ⟨c2, w2, hfold, hknown, ?_, hle, ?_, ?_, ?_⟩
          · rcases hmem with h | h
            · by_cases hsw : strLtJS e.1 cw.1 = true
              · right
                have he2 : (c2, w2) = e := by
                  rw [h, if_pos hsw, ← heq]
                rw [he2]
                exact List.mem_cons_self e rest
              · left
                rw [h, if_neg hsw]
            · exact Or.inr (List.mem_cons_of_mem _ h)
          · intro x hx hkx
            rcases List.mem_cons.mp hx with rfl | hx2
            · rw [heq]
              exact hle
            · exact hmax x hx2 hkx
          · intro hw2
            have h0 := htie0 hw2
            by_cases hsw : strLtJS e.1 cw.1 = true
            · rw [if_pos hsw] at h0
              by_cases hc : strLtJS cw.1 c2 = true
              · exfalso
                have hcontra := strLtJS_trans hsw hc
                rw [h0] at hcontra
                cases hcontra
              · simpa using hc
            · rw [if_neg hsw] at h0
              exact h0
          · intro x hx hkx hxw
            rcases List.mem_cons.mp hx with rfl | hx2
            · have h0 := htie0 (hxw.symm.trans heq)
              by_cases hsw : strLtJS x.1 cw.1 = true
              · rw [if_pos hsw] at h0
                exact h0
              · rw [if_neg hsw] at h0
                by_cases hec : strLtJS x.1 c2 = true
                · exfalso
                  have hsw2 : strLtJS x.1 cw.1 = false := by simpa using hsw
                  by_cases hc1 : strLtJS cw.1 x.1 = true
                  · have hcontra := strLtJS_trans hc1 hec
                    rw [h0] at hcontra
                    cases hcontra
                  · have hc1b : strLtJS cw.1 x.1 = false := by simpa using hc1
                    have hx1 : x.1 = cw.1 := strLtJS_connex hsw2 hc1b
                    rw [hx1] at hec
                    rw [h0] at hec
                    cases hec
                · simpa using hec
            · exact htie x hx2 hkx hxw
        · rw [if_neg heq]
          obtain ⟨c2, w2, hfold, hknown, hmem, hle, hmax, htie0, htie⟩ := ih cw hcw
          refine ⟨c2, w2, hfold, hknown, ?_, hle, ?_, htie0, ?_⟩
          · rcases hmem with h | h
            · exact Or.inl h
            · exact Or.inr (List.mem_cons_of_mem _ h)
          · intro x hx hkx
            rcases List.mem_cons.mp hx with rfl | hx2
            · have hxlt : x.2 < cw.2 := lt_of_le_of_ne (le_of_not_lt hlt) heq
              exact le_of_lt (lt_of_lt_of_le hxlt hle)
            · exact hmax x hx2 hkx
          · intro x hx hkx hxw
            rcases List.mem_cons.mp hx with rfl | hx2
            · exfalso
              have hxlt : x.2 < cw.2 := lt_of_le_of_ne (le_of_not_lt hlt) heq
              rw [hxw] at hxlt
              exact absurd hxlt (not_lt.mpr hle)
            · exact htie x hx2 hkx hxw

theorem foldl_originStep_init (es : List (String × ℚ)) (hpos : ∀ e ∈ es, 0 < e.2) :
    ((es.filter fun e => decide (toLowerStr e.1 ≠ "unknown")) = [] ∧
       es.foldl originStep ⟨"unknown", 0, false⟩ = ⟨"unknown", 0, false⟩) ∨
    (∃ c2 w2, es.foldl originStep ⟨"unknown", 0, false⟩ = ⟨c2, w2, true⟩ ∧
       toLowerStr c2 ≠ "unknown" ∧ (c2, w2) ∈ es ∧
       (∀ e ∈ es, toLowerStr e.1 ≠ "unknown" → e.2 ≤ w2) ∧
       (∀ e ∈ es, toLowerStr e.1 ≠ "unknown" → e.2 = w2 → strLtJS e.1 c2 = false)) := by
  induction es with
  | nil => exact Or.inl ⟨rfl, rfl⟩
  | cons e rest ih =>
    by_cases hke : toLowerStr e.1 = "unknown"
    · rw [List.foldl_cons, originStep_skip _ _ hke]
      rcases ih (fun x hx => hpos x (List.mem_cons_of_mem _ hx)) with
        ⟨hf, hfold⟩ | ⟨c2, w2, hfold, hknown, hmem, hmax, htie⟩
      · left
        refine ⟨?_, hfold⟩
        rw [List.filter_cons_of_neg (by simp [hke])]
        exact hf
      · right
        refine ⟨c2, w2, hfold, hknown, List.mem_cons_of_mem _ hmem, ?_, ?_⟩
        · intro x hx hkx
          rcases List.mem_cons.mp hx with rfl | hx2
          · exact absurd hke hkx
          · exact hmax x hx2 hkx
        · intro x hx hkx hxw
          rcases List.mem_cons.mp hx with rfl | hx2
          · exact absurd hke hkx
          · exact htie x hx2 hkx hxw
    · right
      rw [List.foldl_cons]
      have hstep : originStep ⟨"unknown", 0, false⟩ e = ⟨e.1, e.2, true⟩ := by
        unfold originStep
        rw [if_pos ⟨hke, hpos e (List.mem_cons_self e rest)⟩]
      rw [hstep]
      obtain ⟨c2, w2, hfold, hknown, hmem, hle, hmax, htie0, htie⟩ :=
        foldl_originStep_known rest e hke
      refine ⟨c2, w2, hfold, hknown, ?_, ?_, ?_⟩
      · rcases hmem with h | h
        · rw [h]
          exact List.mem_cons_self e rest
        · exact List.mem_cons_of_mem _ h
      · intro x hx hkx
        rcases List.mem_cons.mp hx with rfl | hx2
        · exact hle
        · exact hmax x hx2 hkx
      · intro x hx hkx hxw
        rcases List.mem_cons.mp hx with rfl | hx2
        · exact htie0 hxw.symm
        · exact htie x hx2 hkx hxw

theorem jsOrStr_eq_match (fb : Option String) (hfb : fb ≠ some "") (b : String) :
    jsOrStr fb b = (match fb with | some f => f | none => b) := by
  cases fb with
  | none => rfl
  | some f =>
    have hf : f ≠ "" := fun h => hfb (by rw [h])
    have hd : f.data ≠ [] := fun h => hf (String.ext h)
    unfold jsOrStr
    rw [if_pos (by simpa [jsStrTruthy, List.isEmpty_iff] using hd)]
    rfl

theorem getDominantOrigin_eval (m : String × ℚ) (ms : List (String × ℚ))
    (fb : Option String) :
    getDominantOrigin (some (m :: ms)) fb =
      (if ((m :: ms).foldl originStep ⟨"unknown", 0, false⟩).hasKnownOrigin = false ∧
          ((lookupMix (m :: ms) "Unknown").any fun w => decide ((1 : ℚ)/2 ≤ w)) = true then
        "unknown"
      else if ((m :: ms).foldl originStep ⟨"unknown", 0, false⟩).dominantCountry = "unknown" ∧
          jsStrTruthy fb = true then
        fb.getD ""
      else ((m :: ms).foldl originStep ⟨"unknown", 0, false⟩).dominantCountry) := rfl

/-- C2 (amended): restricted to origin mixes whose weights are all
strictly positive (the shape origin fractions take) and to fallback
fields that are not the empty string, the classification behaves as
the claim states: when a non-unknown entry exists the result is a
non-unknown entry name of maximal weight that is lexicographically
least among the tied maximal entries; when none exists it is the
literal unknown if the mapping holds an Unknown weight of at least
one half, and otherwise the fallback when present and the literal
unknown when not. Without the positivity restriction the claim fails
(see the counterexample). -/
theorem getDominantOrigin_spec (mix : List (String × ℚ)) (fb : Option String)
    (hpos : ∀ e ∈ mix, 0 < e.2) (hfb : fb ≠ some "") :
    if (mix.filter fun e => decide (toLowerStr e.1 ≠ "unknown")) = [] then
      (if ((lookupMix mix "Unknown").any fun w => decide ((1 : ℚ)/2 ≤ w)) = true then
         getDominantOrigin (some mix) fb = "unknown"
       else getDominantOrigin (some mix) fb =
         (match fb with
          | some f => f
          | none => "unknown"))
    else
      ∃ w : ℚ,
        (getDominantOrigin (some mix) fb, w) ∈ mix ∧
        toLowerStr (getDominantOrigin (some mix) fb) ≠ "unknown" ∧
        (∀ e ∈ mix, toLowerStr e.1 ≠ "unknown" → e.2 ≤ w) ∧
        (∀ e ∈ mix, toLowerStr e.1 ≠ "unknown" → e.2 = w →
           strLtJS e.1 (getDominantOrigin (some mix) fb) = false) := by
  rcases foldl_originStep_init mix hpos with
    ⟨hf, hfold⟩ | ⟨c2, w2, hfold, hknown, hmem, hmax, htie⟩
  · rw [if_pos hf]
    by_cases hany : ((lookupMix mix "Unknown").any fun w => decide ((1 : ℚ)/2 ≤ w)) = true
    · rw [if_pos hany]
      cases mix with
      | nil => exact absurd hany (by simp [lookupMix, Option.any])
      | cons m ms =>
        rw [getDominantOrigin_eval, hfold]
        rw [if_pos ⟨rfl, hany⟩]
    · rw [if_neg hany]
      have hcode : getDominantOrigin (some mix) fb = jsOrStr fb "unknown" := by
        cases mix with
        | nil => rfl
        | cons m ms =>
          rw [getDominantOrigin_eval, hfold]
          rw [if_neg (fun hand => hany hand.2)]
          by_cases htr : jsStrTruthy fb = true
          · rw [if_pos ⟨rfl, htr⟩]
            unfold jsOrStr
            rw [if_pos htr]
          · rw [if_neg (fun hand => htr hand.2)]
            unfold jsOrStr
            rw [if_neg htr]
      rw [hcode, jsOrStr_eq_match fb hfb]
  · have hne : mix ≠ [] := by
      intro h
      rw [h] at hmem
      cases hmem
    obtain ⟨m, ms, rfl⟩ : ∃ m ms, mix = m :: ms := by
      cases mix with
      | nil => exact absurd rfl hne
      | cons m ms => exact ⟨m, ms, rfl⟩
    rw [if_neg (fun hfe => by
      have hin : (c2, w2) ∈ (m :: ms).filter fun e => decide (toLowerStr e.1 ≠ "unknown") :=
        List.mem_filter.mpr ⟨hmem, by simpa using hknown⟩
      rw [hfe] at hin
      cases hin)]
    have hres : getDominantOrigin (some (m :: ms)) fb = c2 := by
      rw [getDominantOrigin_eval, hfold]
      rw [if_neg (fun hand => by cases hand.1)]
      rw [if_neg (fun hand =>
        hknown (by rw [show c2 = "unknown" from hand.1]; exact toLowerStr_unknown))]
    rw [hres]
    exact ⟨w2, hmem, hknown, hmax, htie⟩

/-- Counterexample for C2 as stated: the mapping with the single
non-unknown entry zebra at weight zero has zebra as its
highest-weight non-unknown entry, yet the code classifies it as the
literal unknown, a string that is not an entry of the mapping at all
(the zero weight never beats the zero-initialized running maximum,
and the tie branch compares zebra against the unknown sentinel and
keeps the sentinel). -/
theorem getDominantOrigin_counterexample :
    getDominantOrigin (some [("zebra", 0)]) none = "unknown" ∧
    toLowerStr "zebra" ≠ "unknown" ∧
    ∀ w : ℚ, ¬ (("unknown", w) ∈ [("zebra", (0 : ℚ))]) := by
  refine ⟨?_, by decide, ?_⟩
  · have hzk : ¬ (toLowerStr "zebra" = "unknown") := by decide
    have hlt : ¬ ((0 : ℚ) < 0) := lt_irrefl 0
    have hsl : strLtJS "zebra" "unknown" = false := by decide
    have hstep : originStep ⟨"unknown", 0, false⟩ ("zebra", (0 : ℚ)) =
        ⟨"unknown", 0, true⟩ := by
      unfold originStep
      rw [if_neg (fun hand => hlt hand.2), if_pos ⟨hzk, rfl⟩, hsl]
      simp
    rw [getDominantOrigin_eval, List.foldl_cons, hstep, List.foldl_nil]
    rw [if_neg (fun hand => by cases hand.1)]
    rw [if_neg (fun hand => by cases hand.2)]
  · intro w hw
    rw [List.mem_singleton] at hw
    have hfst : "unknown" = "zebra" := congrArg Prod.fst hw
    exact absurd hfst (by decide)

/-- Witness for C2: a mapping holding only an Unknown entry of full
weight classifies as unknown even though a fallback country is
present. -/
theorem getDominantOrigin_spec_witness :
    getDominantOrigin (some [("Unknown", 1)]) (some "USA") = "unknown" := by
  have h := getDominantOrigin_spec [("Unknown", (1 : ℚ))] (some "USA")
    (by
      intro e he
      rw [List.mem_singleton] at he
      rw [he]
      norm_num)
    (by simp)
  have hfe : ([("Unknown", (1 : ℚ))].filter fun e =>
      decide (toLowerStr e.1 ≠ "unknown")) = [] := by
    rw [List.filter_cons_of_neg (by decide), List.filter_nil]
  rw [if_pos hfe] at h
  have hany : ((lookupMix [("Unknown", (1 : ℚ))] "Unknown").any fun w =>
      decide ((1 : ℚ)/2 ≤ w)) = true := by
    have hl : lookupMix [("Unknown", (1 : ℚ))] "Unknown" = some 1 := rfl
    rw [hl]
    show decide ((1 : ℚ)/2 ≤ 1) = true
    simp only [decide_eq_true_eq]
    norm_num
  rw [if_pos hany] at h
  exact h

end FamilyTree
